import Mathlib

/-!
Verification of the keyword-indexing and ranking engine of the chatbot-api
repository: `app/cluster_recommender.py` (`ClusterRecommender`) and
`app/article_recommender.py` (`ArticleRecommender`).

The embedding is exact over the loaded corpus: Python dicts become
association lists in insertion order, Python sets become duplicate-free
lists in insertion order, float scores become exact rationals (ℚ) with
`round(x, 4)` modelled as round-half-to-even at four decimal places, and
`str.lower` / `str.strip` are modelled character-wise over the string's
character list.
-/

attribute [local semireducible] Rat.mul Rat.add Rat.inv Rat.sub

/-! ## String primitives -/

/-- Python `str.lower()` (character-wise, as the source applies it to
keywords and titles). -/
def lowerStr (s : String) : String := ⟨s.data.map Char.toLower⟩

/-- Python `str.strip()`: remove leading and trailing whitespace. -/
def stripStr (s : String) : String :=
  ⟨((s.data.dropWhile Char.isWhitespace).reverse.dropWhile Char.isWhitespace).reverse⟩

/-- `kw.lower().strip()`, the keyword normalization used throughout both
recommenders (`article_recommender.py` line 119, `cluster_recommender.py`
line 107, and the index builders). -/
def normalizeKw (s : String) : String := stripStr (lowerStr s)

/-- Does the character list `n` occur at the front of `h`? -/
def matchFront : List Char → List Char → Bool
  | [], _ => true
  | _ :: _, [] => false
  | a :: as, b :: bs => a = b && matchFront as bs

/-- Does the character list `n` occur contiguously anywhere in `h`? -/
def occursIn (n : List Char) : List Char → Bool
  | [] => n.isEmpty
  | c :: cs => matchFront n (c :: cs) || occursIn n cs

/-- Python's substring test `needle in hay`. -/
def strContains (hay needle : String) : Bool := occursIn needle.data hay.data

/-! ## Python container primitives -/

/-- Python `dict.get(k, d)` over a dict modelled as an association list in
insertion order. -/
def dictGet (m : List (String × α)) (k : String) (d : α) : α :=
  match m.find? (fun p => p.1 == k) with
  | some p => p.2
  | none => d

/-- Python `set.add` on a set modelled as a duplicate-free list in insertion
order: appends the element unless present. -/
def insertUniq (x : String) (xs : List String) : List String :=
  if x ∈ xs then xs else xs ++ [x]

/-- Python `xs[:n]` for `n` of either sign: a nonnegative `n` keeps the first
`n` elements, a negative `n` drops the last `|n|`. -/
def pyTake (n : ℤ) (xs : List α) : List α :=
  if 0 ≤ n then xs.take n.toNat else xs.take (xs.length - (-n).toNat)

/-! ## The corpus

The static resource files loaded once at startup: `unigramKeywords.json` and
`bigramKeywords.json` (cluster id → raw keyword list), `clustersPMC.json`
(cluster id → PMC id list, the `"clusters"` object) and
`articlesName_PMC.json` (PMC id → title, the `"articles"` object). -/

structure Corpus where
  unigrams : List (String × List String)
  bigrams : List (String × List String)
  clusters_pmc : List (String × List String)
  pmc_to_title : List (String × String)
deriving DecidableEq, Repr

/-! ## Inverted index of `ArticleRecommender._build_keyword_index`

`keyword_index` is a `defaultdict(set)`; we model it as a total function
from keyword to the duplicate-free list of cluster ids in insertion order,
`[]` standing for the default empty set. -/

/-- `keyword_index[k0].add(cid)` on the functional representation. -/
def addEntry (idx : String → List String) (cid k0 : String) : String → List String :=
  fun k => if k = k0 then insertUniq cid (idx k) else idx k

/-- One source file's pass of `ArticleRecommender._build_keyword_index`
(lines 68-71 / 78-81): for every cluster entry and every raw keyword,
register the cluster under `keyword.lower().strip()`. -/
def indexSource (src : List (String × List String)) (idx : String → List String) :
    String → List String :=
  src.foldl (fun idx p => p.2.foldl (fun idx kw => addEntry idx p.1 (normalizeKw kw)) idx) idx

/-- `ArticleRecommender._build_keyword_index`: unigrams first, then bigrams. -/
def ar_keyword_index (c : Corpus) : String → List String :=
  indexSource c.bigrams (indexSource c.unigrams (fun _ => []))

/-! ## `ClusterRecommender._load_cluster_keywords` and `_build_keyword_index` -/

/-- `cluster_kws[cid].add(v)` on a `defaultdict(set)` modelled as an
association list: update the entry of `cid` in place, or append a new one. -/
def updAdd (m : List (String × List String)) (cid v : String) : List (String × List String) :=
  match m with
  | [] => [(cid, [v])]
  | p :: rest => if p.1 = cid then (p.1, insertUniq v p.2) :: rest else p :: updAdd rest cid v

/-- One source file's pass of `ClusterRecommender._load_cluster_keywords`
(lines 47-49 / 56-58): add `keyword.lower().strip()` to the cluster's set. -/
def addSource (src : List (String × List String)) (m : List (String × List String)) :
    List (String × List String) :=
  src.foldl (fun m p => p.2.foldl (fun m kw => updAdd m p.1 (normalizeKw kw)) m) m

/-- `ClusterRecommender._load_cluster_keywords`: the merged normalized
keyword set of every cluster, unigrams first, then bigrams. -/
def load_cluster_keywords (c : Corpus) : List (String × List String) :=
  addSource c.bigrams (addSource c.unigrams [])

/-- `ClusterRecommender._build_keyword_index` (lines 63-73): invert
`cluster_keywords`, whose keywords are already normalized. -/
def invertIndex (ck : List (String × List String)) : String → List String :=
  ck.foldl (fun idx p => p.2.foldl (fun idx kw => addEntry idx p.1 kw) idx) (fun _ => [])

/-- The `ClusterRecommender`'s inverted index `keyword_to_clusters`. -/
def cr_keyword_index (c : Corpus) : String → List String :=
  invertIndex (load_cluster_keywords c)

/-! ## Rounding

Python's `round(x, 4)` rounds half to even; scores are exact rationals. -/

/-- `⌊q⌋` written computably (`Rat.floor_def`). -/
def ratFloor (q : ℚ) : ℤ := q.num / (q.den : ℤ)

/-- Round to the nearest integer, ties to the even neighbour. -/
def roundHalfEven (q : ℚ) : ℤ :=
  let f := ratFloor q
  let r := q - (f : ℚ)
  if r < 1/2 then f
  else if 1/2 < r then f + 1
  else if f % 2 = 0 then f else f + 1

/-- Python `round(q, 4)`. -/
def round4 (q : ℚ) : ℚ := (roundHalfEven (q * 10000) : ℚ) / 10000

/-! ## Sorting

Python's `list.sort(key=…, reverse=True)` is a stable descending sort; we
model it as stable insertion sort by a rational key. -/

/-- Insert `x` before the first element whose key is at most `x`'s key. -/
def insertDescBy (key : α → ℚ) (x : α) : List α → List α
  | [] => [x]
  | y :: ys => if key y ≤ key x then x :: y :: ys else y :: insertDescBy key x ys

/-- Stable sort, descending by `key`. -/
def sortDescBy (key : α → ℚ) (l : List α) : List α :=
  l.foldr (insertDescBy key) []

/-- Insert into an ascending list of strings. -/
def insertAsc (x : String) : List String → List String
  | [] => [x]
  | y :: ys => if y < x then y :: insertAsc x ys else x :: y :: ys

/-- Python `sorted` on a list of strings (ascending). -/
def sortStrings (l : List String) : List String := l.foldr insertAsc []

/-! ## Per-cluster match counting

Both rankers accumulate `cluster_scores = defaultdict(lambda: {"count": 0,
"keywords": set()})`; we model it as an association list
`cluster id ↦ (count, matched keywords)` in insertion order. -/

/-- `cluster_scores[cid]["count"] += 1; cluster_scores[cid]["keywords"].add(kw)`. -/
def bumpCluster (kw : String) (m : List (String × Nat × List String)) (cid : String) :
    List (String × Nat × List String) :=
  match m with
  | [] => [(cid, 1, [kw])]
  | e :: rest =>
    if e.1 = cid then (e.1, e.2.1 + 1, insertUniq kw e.2.2) :: rest
    else e :: bumpCluster kw rest cid

/-- The `for keyword in normalized_keywords: for cluster_id in
matching_clusters: …` double loop of both rankers (`article_recommender.py`
lines 124-130, `cluster_recommender.py` lines 112-118). -/
def cluster_scores_of (idx : String → List String) (nks : List String) :
    List (String × Nat × List String) :=
  nks.foldl (fun m kw => (idx kw).foldl (bumpCluster kw) m) []

/-- The count recorded for a cluster id (0 when the cluster is absent). -/
def countOf (m : List (String × Nat × List String)) (cid : String) : Nat :=
  match m.find? (fun e => e.1 == cid) with
  | some e => e.2.1
  | none => 0

/-! ## `ClusterRecommender.find_best_cluster` -/

/-- A ranked cluster as returned by `find_best_cluster`. -/
structure ClusterResult where
  cluster_id : String
  relevance_score : ℚ
  matched_keywords : List String
  total_keywords_in_cluster : Nat
deriving DecidableEq, Repr

/-- `ClusterRecommender.find_best_cluster` (lines 76-144). -/
def find_best_cluster (c : Corpus) (keywords : List String) (top_n : ℤ) :
    List ClusterResult :=
  if keywords = [] then []
  else
    let kws := keywords.take 5
    let nks := kws.map normalizeKw
    let scores := cluster_scores_of (cr_keyword_index c) nks
    if scores = [] then []
    else
      let results := scores.map (fun e =>
        { cluster_id := e.1
          relevance_score := round4 ((e.2.1 : ℚ) / (nks.length : ℚ))
          matched_keywords := sortStrings e.2.2
          total_keywords_in_cluster := (dictGet (load_cluster_keywords c) e.1 []).length })
      pyTake top_n (sortDescBy (fun r => r.relevance_score) results)

/-! ## `ArticleRecommender.find_articles_by_keywords` -/

/-- A ranked article as returned by `find_articles_by_keywords`. -/
structure ArticleResult where
  pmc_id : String
  title : String
  relevance_score : ℚ
  cluster_id : String
  matched_keywords : List String
deriving DecidableEq, Repr

/-- `ArticleRecommender._find_matched_keywords` (lines 185-196): the raw
query keywords whose lowercase form occurs in the lowercase title. -/
def find_matched_keywords (title : String) (keywords : List String) : List String :=
  let title_lower := lowerStr title
  keywords.filter (fun kw => strContains title_lower (lowerStr kw))

/-- `sorted_clusters` (lines 137-141): clusters sorted descending by raw
matched-keyword count. -/
def sort_clusters_by_count (scores : List (String × Nat × List String)) :
    List (String × Nat × List String) :=
  sortDescBy (fun e => (e.2.1 : ℚ)) scores

/-- Modelled from the spec, §4.4 step 2: the walk order the spec prescribes,
descending by `cluster_score` = matched-keyword count / query length.
(The code instead sorts by the raw count; claim C9 relates the two.) -/
def spec_sort_clusters_by_score (L : Nat) (scores : List (String × Nat × List String)) :
    List (String × Nat × List String) :=
  sortDescBy (fun e => (e.2.1 : ℚ) / (L : ℚ)) scores

/-- The body of the `for pmc_id in pmc_ids:` loop (lines 154-177). The state
is `(all_candidates, seen_pmcs)`; `seen_pmcs` is extended before the title
check, exactly as in the source. -/
def processPmc (c : Corpus) (kws : List String) (L : Nat) (cid : String) (cnt : Nat)
    (kwset : List String) (acc : List ArticleResult × List String) (pmc : String) :
    List ArticleResult × List String :=
  if pmc ∈ acc.2 then acc
  else
    let seen := acc.2 ++ [pmc]
    let title := dictGet c.pmc_to_title pmc ""
    if title = "" then (acc.1, seen)
    else
      let matched := find_matched_keywords title kws
      let cluster_score : ℚ := (cnt : ℚ) / (L : ℚ)
      let title_boost : ℚ := (matched.length : ℚ) / (kws.length : ℚ)
      let final_score := cluster_score * (4/5 + 1/5 * title_boost)
      (acc.1 ++ [{ pmc_id := pmc, title := title, relevance_score := round4 final_score,
                   cluster_id := cid, matched_keywords := kwset }], seen)

/-- One iteration of the `for cluster_id, score_info in sorted_clusters:`
walk (lines 147-177). -/
def processCluster (c : Corpus) (kws : List String) (L : Nat)
    (acc : List ArticleResult × List String) (e : String × Nat × List String) :
    List ArticleResult × List String :=
  (dictGet c.clusters_pmc e.1 []).foldl (processPmc c kws L e.1 e.2.1 e.2.2) acc

/-- The full candidate-collection walk over the sorted clusters, starting
from empty `all_candidates` and `seen_pmcs`. -/
def collectArticles (c : Corpus) (kws : List String) (L : Nat)
    (walk : List (String × Nat × List String)) : List ArticleResult × List String :=
  walk.foldl (processCluster c kws L) ([], [])

/-- `ArticleRecommender.find_articles_by_keywords` (lines 86-182). -/
def find_articles_by_keywords (c : Corpus) (keywords : List String) (top_n : ℤ) :
    List ArticleResult :=
  if keywords = [] then []
  else
    let kws := keywords.take 5
    let nks := kws.map normalizeKw
    let scores := cluster_scores_of (ar_keyword_index c) nks
    if scores = [] then []
    else
      let cands := (collectArticles c kws nks.length (sort_clusters_by_count scores)).1
      pyTake top_n (sortDescBy (fun r => r.relevance_score) cands)

/-- The descending-by-count walk order of `find_articles_by_keywords` for a
given query, as claims C4 and C9 refer to it. -/
def articleWalkOf (c : Corpus) (keywords : List String) :
    List (String × Nat × List String) :=
  sort_clusters_by_count
    (cluster_scores_of (ar_keyword_index c) ((keywords.take 5).map normalizeKw))

/-- The first cluster of the walk whose PMC list contains `pmc` (the cluster
a deduplicated article is attributed to). -/
def firstContainingCluster (c : Corpus) (keywords : List String) (pmc : String) :
    Option String :=
  ((articleWalkOf c keywords).find?
    (fun e => decide (pmc ∈ dictGet c.clusters_pmc e.1 []))).map (fun e => e.1)

/-! ## Example corpora (used to witness the theorems on concrete runs) -/

/-- A one-cluster corpus: cluster "0" has the single keyword "alpha". -/
def c2Corpus : Corpus :=
  { unigrams := [("0", ["alpha"])], bigrams := [], clusters_pmc := [], pmc_to_title := [] }

/-- A corpus with a whitespace-sensitive title-boost example: cluster "0"
has keyword "bone" and article "P1" titled "Bone loss". -/
def c10Corpus : Corpus :=
  { unigrams := [("0", ["bone"])], bigrams := [],
    clusters_pmc := [("0", ["P1"])], pmc_to_title := [("P1", "Bone loss")] }

/-- A two-cluster corpus with a shared article ("P2", with an empty title)
and distinct titled articles in each cluster. -/
def exArtCorpus : Corpus :=
  { unigrams := [("0", ["alpha"]), ("1", ["beta"])], bigrams := [("0", ["bone loss"])],
    clusters_pmc := [("0", ["P1", "P2"]), ("1", ["P2", "P3"])],
    pmc_to_title := [("P1", "Alpha study"), ("P2", ""), ("P3", "Beta results")] }

/-! ## Basic lemmas: insertion, truncation -/

theorem mem_insertUniq {x y : String} {xs : List String} :
    x ∈ insertUniq y xs ↔ x = y ∨ x ∈ xs := by
  unfold insertUniq
  split
  · constructor
    · exact fun h => Or.inr h
    · rintro (rfl | h)
      · assumption
      · exact h
  · simp [or_comm]

theorem nodup_insertUniq {y : String} {xs : List String} (h : xs.Nodup) :
    (insertUniq y xs).Nodup := by
  unfold insertUniq
  split
  · exact h
  · next hy =>
    refine List.Nodup.append h (List.nodup_singleton y) ?_
    intro a ha hb
    rw [List.mem_singleton] at hb
    exact hy (hb ▸ ha)

theorem pyTake_sublist (n : ℤ) (xs : List α) : List.Sublist (pyTake n xs) xs := by
  unfold pyTake
  split
  · exact List.take_sublist _ _
  · exact List.take_sublist _ _

theorem length_pyTake_le {n : ℤ} (xs : List α) (h : 0 ≤ n) :
    ((pyTake n xs).length : ℤ) ≤ n := by
  unfold pyTake
  rw [if_pos h]
  calc ((xs.take n.toNat).length : ℤ) ≤ (n.toNat : ℤ) := by
        exact_mod_cast List.length_take_le _ _
    _ = n := Int.toNat_of_nonneg h

/-! ## Rounding bounds -/

theorem ratFloor_eq_floor (q : ℚ) : ratFloor q = ⌊q⌋ := by
  rw [Rat.floor_def]; rfl

theorem roundHalfEven_le (q : ℚ) : (roundHalfEven q : ℚ) ≤ q + 1/2 := by
  have hfl : (⌊q⌋ : ℚ) ≤ q := Int.floor_le q
  have hfu : q < (⌊q⌋ : ℚ) + 1 := Int.lt_floor_add_one q
  simp only [roundHalfEven, ratFloor_eq_floor]
  split
  · next h => linarith
  · split
    · next h2 => push_cast; linarith
    · next h1 h2 =>
      have : q - (⌊q⌋ : ℚ) = 1/2 := le_antisymm (not_lt.mp h2) (not_lt.mp h1)
      split <;> push_cast <;> linarith

theorem le_roundHalfEven (q : ℚ) : q - 1/2 ≤ (roundHalfEven q : ℚ) := by
  have hfl : (⌊q⌋ : ℚ) ≤ q := Int.floor_le q
  have hfu : q < (⌊q⌋ : ℚ) + 1 := Int.lt_floor_add_one q
  simp only [roundHalfEven, ratFloor_eq_floor]
  split
  · next h => linarith
  · split
    · next h2 => push_cast; linarith
    · next h1 h2 =>
      have : q - (⌊q⌋ : ℚ) = 1/2 := le_antisymm (not_lt.mp h2) (not_lt.mp h1)
      split <;> push_cast <;> linarith

theorem round4_le_one {q : ℚ} (h : q ≤ 1) : round4 q ≤ 1 := by
  unfold round4
  rw [div_le_one (by norm_num)]
  have h2 := roundHalfEven_le (q * 10000)
  have h3 : (roundHalfEven (q * 10000) : ℚ) < 10001 := by nlinarith
  have h4 : roundHalfEven (q * 10000) < 10001 := by exact_mod_cast h3
  have h5 : roundHalfEven (q * 10000) ≤ 10000 := by omega
  exact_mod_cast h5

theorem round4_pos {q : ℚ} (h : 4/25 ≤ q) : 0 < round4 q := by
  unfold round4
  have h2 := le_roundHalfEven (q * 10000)
  have h3 : (1599 : ℚ) < (roundHalfEven (q * 10000) : ℚ) := by nlinarith
  have h4 : (0 : ℚ) < (roundHalfEven (q * 10000) : ℚ) := by linarith
  positivity

/-! ## Sorting lemmas -/

theorem mem_insertDescBy (key : α → ℚ) (x y : α) (l : List α) :
    y ∈ insertDescBy key x l ↔ y = x ∨ y ∈ l := by
  induction l with
  | nil => simp [insertDescBy]
  | cons z zs ih =>
    unfold insertDescBy
    split
    · simp
    · simp only [List.mem_cons, ih]
      tauto

theorem perm_insertDescBy (key : α → ℚ) (x : α) (l : List α) :
    List.Perm (insertDescBy key x l) (x :: l) := by
  induction l with
  | nil => rfl
  | cons z zs ih =>
    unfold insertDescBy
    split
    · rfl
    · exact (List.Perm.cons z ih).trans (List.Perm.swap x z zs)

theorem perm_sortDescBy (key : α → ℚ) (l : List α) : List.Perm (sortDescBy key l) l := by
  induction l with
  | nil => rfl
  | cons z zs ih =>
    unfold sortDescBy at ih ⊢
    rw [List.foldr_cons]
    exact (perm_insertDescBy key z _).trans (List.Perm.cons z ih)

theorem mem_sortDescBy (key : α → ℚ) (x : α) (l : List α) :
    x ∈ sortDescBy key l ↔ x ∈ l :=
  (perm_sortDescBy key l).mem_iff

theorem pairwise_insertDescBy (key : α → ℚ) (x : α) (l : List α)
    (h : l.Pairwise (fun a b => key b ≤ key a)) :
    (insertDescBy key x l).Pairwise (fun a b => key b ≤ key a) := by
  induction l with
  | nil => simp [insertDescBy]
  | cons z zs ih =>
    rw [List.pairwise_cons] at h
    unfold insertDescBy
    split
    · next hz =>
      rw [List.pairwise_cons]
      refine ⟨?_, List.pairwise_cons.mpr h⟩
      intro y hy
      rcases List.mem_cons.mp hy with rfl | hy
      · exact hz
      · exact le_trans (h.1 y hy) hz
    · next hz =>
      rw [List.pairwise_cons]
      refine ⟨?_, ih h.2⟩
      intro y hy
      rcases (mem_insertDescBy key x y zs).mp hy with rfl | hy
      · exact le_of_lt (lt_of_not_le hz)
      · exact h.1 y hy

theorem pairwise_sortDescBy (key : α → ℚ) (l : List α) :
    (sortDescBy key l).Pairwise (fun a b => key b ≤ key a) := by
  induction l with
  | nil => simp [sortDescBy]
  | cons z zs ih =>
    unfold sortDescBy at ih ⊢
    rw [List.foldr_cons]
    exact pairwise_insertDescBy key z _ ih

theorem insertDescBy_congr_key (key1 key2 : α → ℚ)
    (h : ∀ a b : α, key1 a ≤ key1 b ↔ key2 a ≤ key2 b) (x : α) (l : List α) :
    insertDescBy key1 x l = insertDescBy key2 x l := by
  induction l with
  | nil => rfl
  | cons z zs ih =>
    unfold insertDescBy
    by_cases hz : key1 z ≤ key1 x
    · rw [if_pos hz, if_pos ((h z x).mp hz)]
    · rw [if_neg hz, if_neg (fun hc => hz ((h z x).mpr hc)), ih]

theorem sortDescBy_congr_key (key1 key2 : α → ℚ)
    (h : ∀ a b : α, key1 a ≤ key1 b ↔ key2 a ≤ key2 b) (l : List α) :
    sortDescBy key1 l = sortDescBy key2 l := by
  induction l with
  | nil => rfl
  | cons z zs ih =>
    unfold sortDescBy at ih ⊢
    rw [List.foldr_cons, List.foldr_cons, ih, insertDescBy_congr_key key1 key2 h]

/-! ## Index characterization -/

theorem exists_mem_append {l1 l2 : List β} {P : β → Prop} :
    (∃ p ∈ l1 ++ l2, P p) ↔ (∃ p ∈ l1, P p) ∨ ∃ p ∈ l2, P p := by
  simp [List.mem_append, or_and_right, exists_or]

theorem mem_addEntry {idx : String → List String} {cid k0 x k : String} :
    x ∈ addEntry idx cid k0 k ↔ x ∈ idx k ∨ (x = cid ∧ k = k0) := by
  unfold addEntry
  split
  · next h => rw [mem_insertUniq]; subst h; tauto
  · next h =>
    constructor
    · exact Or.inl
    · rintro (hx | ⟨rfl, rfl⟩)
      · exact hx
      · exact absurd rfl h

theorem nodup_addEntry {idx : String → List String} (h : ∀ k, (idx k).Nodup)
    (cid k0 : String) : ∀ k, (addEntry idx cid k0 k).Nodup := by
  intro k
  unfold addEntry
  split
  · exact nodup_insertUniq (h k)
  · exact h k

theorem mem_foldl_addEntry (cid : String) (f : String → String) (ws : List String)
    (idx : String → List String) (x k : String) :
    x ∈ (ws.foldl (fun idx kw => addEntry idx cid (f kw)) idx) k ↔
      x ∈ idx k ∨ (x = cid ∧ ∃ w ∈ ws, f w = k) := by
  induction ws generalizing idx with
  | nil => simp
  | cons w ws ih =>
    rw [List.foldl_cons, ih, mem_addEntry]
    constructor
    · rintro ((hx | ⟨rfl, rfl⟩) | ⟨rfl, w', hw', hkw⟩)
      · exact Or.inl hx
      · exact Or.inr ⟨rfl, w, List.mem_cons_self w ws, rfl⟩
      · exact Or.inr ⟨rfl, w', List.mem_cons_of_mem w hw', hkw⟩
    · rintro (hx | ⟨rfl, w', hw', hkw⟩)
      · exact Or.inl (Or.inl hx)
      · rcases List.mem_cons.mp hw' with rfl | hw'
        · exact Or.inl (Or.inr ⟨rfl, hkw.symm⟩)
        · exact Or.inr ⟨rfl, w', hw', hkw⟩

theorem nodup_foldl_addEntry (cid : String) (f : String → String) (ws : List String)
    (idx : String → List String) (h : ∀ k, (idx k).Nodup) :
    ∀ k, ((ws.foldl (fun idx kw => addEntry idx cid (f kw)) idx) k).Nodup := by
  induction ws generalizing idx with
  | nil => exact h
  | cons w ws ih => exact ih _ (nodup_addEntry h cid (f w))

theorem mem_indexSource (src : List (String × List String)) (idx : String → List String)
    (x k : String) :
    x ∈ indexSource src idx k ↔
      x ∈ idx k ∨ ∃ p ∈ src, p.1 = x ∧ ∃ w ∈ p.2, normalizeKw w = k := by
  induction src generalizing idx with
  | nil => simp [indexSource]
  | cons p ps ih =>
    unfold indexSource at ih ⊢
    rw [List.foldl_cons, ih, mem_foldl_addEntry]
    constructor
    · rintro ((hx | ⟨rfl, w, hw, hkw⟩) | ⟨p', hp', hx, hw⟩)
      · exact Or.inl hx
      · exact Or.inr ⟨p, List.mem_cons_self p ps, rfl, w, hw, hkw⟩
      · exact Or.inr ⟨p', List.mem_cons_of_mem p hp', hx, hw⟩
    · rintro (hx | ⟨p', hp', hx, w, hw, hkw⟩)
      · exact Or.inl (Or.inl hx)
      · rcases List.mem_cons.mp hp' with rfl | hp'
        · exact Or.inl (Or.inr ⟨hx.symm, w, hw, hkw⟩)
        · exact Or.inr ⟨p', hp', hx, w, hw, hkw⟩

theorem nodup_indexSource (src : List (String × List String)) (idx : String → List String)
    (h : ∀ k, (idx k).Nodup) : ∀ k, (indexSource src idx k).Nodup := by
  induction src generalizing idx with
  | nil => exact h
  | cons p ps ih =>
    unfold indexSource at ih ⊢
    rw [List.foldl_cons]
    exact ih _ (nodup_foldl_addEntry p.1 normalizeKw p.2 idx h)

theorem mem_ar_keyword_index (c : Corpus) (x k : String) :
    x ∈ ar_keyword_index c k ↔
      ∃ p ∈ c.unigrams ++ c.bigrams, p.1 = x ∧ ∃ w ∈ p.2, normalizeKw w = k := by
  unfold ar_keyword_index
  rw [mem_indexSource, mem_indexSource, exists_mem_append]
  simp

theorem nodup_ar_keyword_index (c : Corpus) (k : String) :
    (ar_keyword_index c k).Nodup := by
  unfold ar_keyword_index
  exact nodup_indexSource _ _ (nodup_indexSource _ _ (fun _ => List.nodup_nil)) k

theorem mem_invertIndex (ck : List (String × List String)) (x k : String) :
    x ∈ invertIndex ck k ↔ ∃ p ∈ ck, p.1 = x ∧ k ∈ p.2 := by
  unfold invertIndex
  suffices h : ∀ (idx : String → List String),
      x ∈ (ck.foldl (fun idx p => p.2.foldl (fun idx kw => addEntry idx p.1 kw) idx) idx) k ↔
        x ∈ idx k ∨ ∃ p ∈ ck, p.1 = x ∧ k ∈ p.2 by
    rw [h]; simp
  intro idx
  induction ck generalizing idx with
  | nil => simp
  | cons p ps ih =>
    rw [List.foldl_cons, ih, mem_foldl_addEntry p.1 (fun w => w)]
    constructor
    · rintro ((hx | ⟨rfl, w, hw, rfl⟩) | ⟨p', hp', hx, hw⟩)
      · exact Or.inl hx
      · exact Or.inr ⟨p, List.mem_cons_self p ps, rfl, hw⟩
      · exact Or.inr ⟨p', List.mem_cons_of_mem p hp', hx, hw⟩
    · rintro (hx | ⟨p', hp', hx, hw⟩)
      · exact Or.inl (Or.inl hx)
      · rcases List.mem_cons.mp hp' with rfl | hp'
        · exact Or.inl (Or.inr ⟨hx.symm, k, hw, rfl⟩)
        · exact Or.inr ⟨p', hp', hx, hw⟩

theorem nodup_cr_keyword_index (c : Corpus) (k : String) :
    (cr_keyword_index c k).Nodup := by
  unfold cr_keyword_index invertIndex
  suffices h : ∀ (ck : List (String × List String)) (idx : String → List String),
      (∀ k, (idx k).Nodup) →
      ∀ k, ((ck.foldl (fun idx p => p.2.foldl (fun idx kw => addEntry idx p.1 kw) idx) idx) k).Nodup by
    exact h _ _ (fun _ => List.nodup_nil) k
  intro ck
  induction ck with
  | nil => exact fun idx h => h
  | cons p ps ih =>
    intro idx h
    rw [List.foldl_cons]
    exact ih _ (nodup_foldl_addEntry p.1 (fun w => w) p.2 idx h)

/-! ## Association-list lemmas for `load_cluster_keywords` -/

theorem dictGet_nil {k : String} {d : α} : dictGet ([] : List (String × α)) k d = d := rfl

theorem dictGet_cons {p : String × α} {m : List (String × α)} {k : String} {d : α} :
    dictGet (p :: m) k d = if p.1 = k then p.2 else dictGet m k d := by
  by_cases h : p.1 = k
  · rw [if_pos h]
    unfold dictGet
    rw [List.find?_cons_of_pos _ (by simpa using h)]
  · rw [if_neg h]
    unfold dictGet
    rw [List.find?_cons_of_neg _ (by simpa using h)]

theorem dictGet_updAdd (m : List (String × List String)) (cid v cid' : String) :
    dictGet (updAdd m cid v) cid' [] =
      if cid' = cid then insertUniq v (dictGet m cid []) else dictGet m cid' [] := by
  induction m with
  | nil =>
    show dictGet [(cid, [v])] cid' [] = _
    rw [dictGet_cons]
    by_cases h : cid' = cid
    · rw [if_pos h.symm, if_pos h, dictGet_nil]
      simp [insertUniq]
    · rw [if_neg (fun hc => h hc.symm), if_neg h]
  | cons p rest ih =>
    unfold updAdd
    by_cases hp : p.1 = cid
    · rw [if_pos hp]
      by_cases h : cid' = cid
      · subst h
        rw [if_pos rfl, dictGet_cons, dictGet_cons, if_pos hp, if_pos hp]
      · have hpc : ¬ p.1 = cid' := by rw [hp]; exact fun hc => h hc.symm
        rw [dictGet_cons, if_neg hpc, if_neg h, dictGet_cons, if_neg hpc]
    · rw [if_neg hp, dictGet_cons]
      by_cases hq : p.1 = cid'
      · have hcc : ¬ cid' = cid := fun hc => hp (hq.trans hc)
        rw [if_pos hq, if_neg hcc, dictGet_cons, if_pos hq]
      · rw [if_neg hq, ih]
        by_cases h : cid' = cid
        · rw [if_pos h, if_pos h, dictGet_cons, if_neg hp]
        · rw [if_neg h, if_neg h, dictGet_cons, if_neg hq]

theorem mem_dictGet_updAdd {m : List (String × List String)} {cid v cid' k : String} :
    k ∈ dictGet (updAdd m cid v) cid' [] ↔
      k ∈ dictGet m cid' [] ∨ (cid' = cid ∧ k = v) := by
  rw [dictGet_updAdd]
  by_cases h : cid' = cid
  · subst h
    rw [if_pos rfl, mem_insertUniq]
    tauto
  · rw [if_neg h]
    tauto

theorem mem_foldl_updAdd (cid : String) (ws : List String)
    (m : List (String × List String)) (cid' k : String) :
    k ∈ dictGet (ws.foldl (fun m kw => updAdd m cid (normalizeKw kw)) m) cid' [] ↔
      k ∈ dictGet m cid' [] ∨ (cid' = cid ∧ ∃ w ∈ ws, normalizeKw w = k) := by
  induction ws generalizing m with
  | nil => simp
  | cons w ws ih =>
    rw [List.foldl_cons, ih, mem_dictGet_updAdd]
    constructor
    · rintro ((hk | ⟨rfl, rfl⟩) | ⟨rfl, w', hw', hkw⟩)
      · exact Or.inl hk
      · exact Or.inr ⟨rfl, w, List.mem_cons_self w ws, rfl⟩
      · exact Or.inr ⟨rfl, w', List.mem_cons_of_mem w hw', hkw⟩
    · rintro (hk | ⟨rfl, w', hw', hkw⟩)
      · exact Or.inl (Or.inl hk)
      · rcases List.mem_cons.mp hw' with rfl | hw'
        · exact Or.inl (Or.inr ⟨rfl, hkw.symm⟩)
        · exact Or.inr ⟨rfl, w', hw', hkw⟩

theorem mem_addSource (src : List (String × List String))
    (m : List (String × List String)) (cid k : String) :
    k ∈ dictGet (addSource src m) cid [] ↔
      k ∈ dictGet m cid [] ∨ ∃ p ∈ src, p.1 = cid ∧ ∃ w ∈ p.2, normalizeKw w = k := by
  induction src generalizing m with
  | nil => simp [addSource]
  | cons p ps ih =>
    unfold addSource at ih ⊢
    rw [List.foldl_cons, ih, mem_foldl_updAdd]
    constructor
    · rintro ((hk | ⟨rfl, w, hw, hkw⟩) | ⟨p', hp', hx, hw⟩)
      · exact Or.inl hk
      · exact Or.inr ⟨p, List.mem_cons_self p ps, rfl, w, hw, hkw⟩
      · exact Or.inr ⟨p', List.mem_cons_of_mem p hp', hx, hw⟩
    · rintro (hk | ⟨p', hp', hx, w, hw, hkw⟩)
      · exact Or.inl (Or.inl hk)
      · rcases List.mem_cons.mp hp' with rfl | hp'
        · exact Or.inl (Or.inr ⟨hx.symm, w, hw, hkw⟩)
        · exact Or.inr ⟨p', hp', hx, w, hw, hkw⟩

theorem mem_load_cluster_keywords (c : Corpus) (cid k : String) :
    k ∈ dictGet (load_cluster_keywords c) cid [] ↔
      ∃ p ∈ c.unigrams ++ c.bigrams, p.1 = cid ∧ ∃ w ∈ p.2, normalizeKw w = k := by
  unfold load_cluster_keywords
  rw [mem_addSource, mem_addSource, exists_mem_append]
  simp [dictGet_nil]

theorem keys_updAdd (m : List (String × List String)) (cid v : String) :
    (updAdd m cid v).map Prod.fst = insertUniq cid (m.map Prod.fst) := by
  induction m with
  | nil => rfl
  | cons p rest ih =>
    unfold updAdd
    by_cases hp : p.1 = cid
    · rw [if_pos hp]
      have : cid ∈ (p :: rest).map Prod.fst := by
        rw [List.map_cons, hp]
        exact List.mem_cons_self _ _
      unfold insertUniq
      rw [if_pos this, List.map_cons, List.map_cons, hp]
    · rw [if_neg hp, List.map_cons, ih, List.map_cons]
      unfold insertUniq
      by_cases hc : cid ∈ rest.map Prod.fst
      · rw [if_pos hc, if_pos (List.mem_cons_of_mem _ hc)]
      · rw [if_neg hc, if_neg ?_, List.cons_append]
        intro hmem
        rcases List.mem_cons.mp hmem with h | h
        · exact hp h.symm
        · exact hc h

theorem keys_nodup_addSource (src : List (String × List String))
    (m : List (String × List String)) (h : (m.map Prod.fst).Nodup) :
    ((addSource src m).map Prod.fst).Nodup := by
  induction src generalizing m with
  | nil => exact h
  | cons p ps ih =>
    unfold addSource at ih ⊢
    rw [List.foldl_cons]
    apply ih
    clear ih
    induction p.2 generalizing m with
    | nil => exact h
    | cons w ws ihw =>
      rw [List.foldl_cons]
      exact ihw _ (by rw [keys_updAdd]; exact nodup_insertUniq h)

theorem keys_nodup_load_cluster_keywords (c : Corpus) :
    ((load_cluster_keywords c).map Prod.fst).Nodup :=
  keys_nodup_addSource _ _ (keys_nodup_addSource _ _ List.nodup_nil)

theorem dictGet_of_mem {m : List (String × α)} (hn : (m.map Prod.fst).Nodup)
    {p : String × α} (hp : p ∈ m) (d : α) : dictGet m p.1 d = p.2 := by
  induction m with
  | nil => cases hp
  | cons q rest ih =>
    rw [List.map_cons, List.nodup_cons] at hn
    rcases List.mem_cons.mp hp with rfl | hp
    · rw [dictGet_cons, if_pos rfl]
    · rw [dictGet_cons, if_neg, ih hn.2 hp]
      intro hq
      exact hn.1 (hq ▸ List.mem_map_of_mem Prod.fst hp)

theorem mem_dictGet_iff_exists {ck : List (String × List String)}
    (hn : (ck.map Prod.fst).Nodup) (x k : String) :
    k ∈ dictGet ck x [] ↔ ∃ p ∈ ck, p.1 = x ∧ k ∈ p.2 := by
  constructor
  · intro hk
    unfold dictGet at hk
    cases hfind : ck.find? (fun q => q.1 == x) with
    | none => rw [hfind] at hk; cases hk
    | some e =>
      rw [hfind] at hk
      exact ⟨e, List.mem_of_find?_eq_some hfind,
        by simpa using List.find?_some hfind, hk⟩
  · rintro ⟨p, hp, rfl, hk⟩
    rw [dictGet_of_mem hn hp]
    exact hk

theorem mem_cr_keyword_index (c : Corpus) (x k : String) :
    x ∈ cr_keyword_index c k ↔ k ∈ dictGet (load_cluster_keywords c) x [] := by
  unfold cr_keyword_index
  rw [mem_invertIndex, mem_dictGet_iff_exists (keys_nodup_load_cluster_keywords c)]

theorem ar_cr_keyword_index_agree (c : Corpus) (x k : String) :
    x ∈ ar_keyword_index c k ↔ x ∈ cr_keyword_index c k := by
  rw [mem_ar_keyword_index, mem_cr_keyword_index, mem_load_cluster_keywords]

/-! ## Counting lemmas for `cluster_scores` -/

theorem countOf_nil (cid : String) : countOf [] cid = 0 := rfl

theorem countOf_cons {e : String × Nat × List String} {m : List (String × Nat × List String)}
    {cid : String} :
    countOf (e :: m) cid = if e.1 = cid then e.2.1 else countOf m cid := by
  by_cases h : e.1 = cid
  · rw [if_pos h]
    unfold countOf
    rw [List.find?_cons_of_pos _ (by simpa using h)]
  · rw [if_neg h]
    unfold countOf
    rw [List.find?_cons_of_neg _ (by simpa using h)]

theorem countOf_bumpCluster (kw : String) (m : List (String × Nat × List String))
    (cid cid' : String) :
    countOf (bumpCluster kw m cid) cid' =
      countOf m cid' + (if cid' = cid then 1 else 0) := by
  induction m with
  | nil =>
    show countOf [(cid, 1, [kw])] cid' = _
    rw [countOf_cons, countOf_nil]
    by_cases h : cid' = cid
    · rw [if_pos h.symm, if_pos h]
    · rw [if_neg (fun hc => h hc.symm), if_neg h]
  | cons e rest ih =>
    unfold bumpCluster
    by_cases he : e.1 = cid
    · rw [if_pos he]
      by_cases hc : cid' = cid
      · subst hc
        rw [countOf_cons, countOf_cons]
        show (if e.1 = cid' then e.2.1 + 1 else countOf rest cid') = _
        rw [if_pos he, if_pos he, if_pos rfl]
      · have hec : ¬ e.1 = cid' := by rw [he]; exact fun h2 => hc h2.symm
        rw [countOf_cons, countOf_cons]
        show (if e.1 = cid' then e.2.1 + 1 else countOf rest cid') = _
        rw [if_neg hec, if_neg hec, if_neg hc]
        omega
    · rw [if_neg he, countOf_cons, countOf_cons]
      by_cases hq : e.1 = cid'
      · have hcc : ¬ cid' = cid := fun h2 => he (hq.trans h2)
        rw [if_pos hq, if_pos hq, if_neg hcc]
        omega
      · rw [if_neg hq, if_neg hq, ih]

theorem countOf_foldl_bump (kw : String) (cids : List String)
    (m : List (String × Nat × List String)) (cid : String) (h : cids.Nodup) :
    countOf (cids.foldl (bumpCluster kw) m) cid =
      countOf m cid + (if cid ∈ cids then 1 else 0) := by
  induction cids generalizing m with
  | nil => simp
  | cons c cs ih =>
    rw [List.nodup_cons] at h
    rw [List.foldl_cons, ih _ h.2, countOf_bumpCluster]
    by_cases hc : cid = c
    · subst hc
      rw [if_pos rfl, if_neg h.1, if_pos (List.mem_cons_self _ _)]
    · rw [if_neg hc]
      by_cases hm : cid ∈ cs
      · rw [if_pos hm, if_pos (List.mem_cons_of_mem _ hm)]
      · rw [if_neg hm, if_neg (fun h2 => (List.mem_cons.mp h2).elim hc hm)]

theorem countOf_cluster_scores (idx : String → List String) (nks : List String)
    (h : ∀ k, (idx k).Nodup) (cid : String) :
    countOf (cluster_scores_of idx nks) cid =
      (nks.filter (fun k => decide (cid ∈ idx k))).length := by
  unfold cluster_scores_of
  suffices h2 : ∀ m, countOf (nks.foldl (fun m kw => (idx kw).foldl (bumpCluster kw) m) m) cid =
      countOf m cid + (nks.filter (fun k => decide (cid ∈ idx k))).length by
    rw [h2 [], countOf_nil, Nat.zero_add]
  induction nks with
  | nil => simp
  | cons kw ks ih =>
    intro m
    rw [List.foldl_cons, ih, countOf_foldl_bump kw _ _ _ (h kw), List.filter_cons]
    by_cases hm : cid ∈ idx kw
    · rw [if_pos hm, if_pos (by simpa using hm), List.length_cons]
      omega
    · rw [if_neg hm, if_neg (by simpa using hm)]
      omega

theorem keys_bumpCluster (kw : String) (m : List (String × Nat × List String))
    (cid : String) :
    (bumpCluster kw m cid).map Prod.fst = insertUniq cid (m.map Prod.fst) := by
  induction m with
  | nil => rfl
  | cons e rest ih =>
    unfold bumpCluster
    by_cases he : e.1 = cid
    · rw [if_pos he]
      have : cid ∈ (e :: rest).map Prod.fst := by
        rw [List.map_cons, he]
        exact List.mem_cons_self _ _
      unfold insertUniq
      rw [if_pos this, List.map_cons, List.map_cons, he]
    · rw [if_neg he, List.map_cons, ih, List.map_cons]
      unfold insertUniq
      by_cases hc : cid ∈ rest.map Prod.fst
      · rw [if_pos hc, if_pos (List.mem_cons_of_mem _ hc)]
      · rw [if_neg hc, if_neg ?_, List.cons_append]
        intro hmem
        rcases List.mem_cons.mp hmem with h2 | h2
        · exact he h2.symm
        · exact hc h2

theorem keys_nodup_cluster_scores (idx : String → List String) (nks : List String) :
    ((cluster_scores_of idx nks).map Prod.fst).Nodup := by
  unfold cluster_scores_of
  suffices h2 : ∀ m : List (String × Nat × List String), (m.map Prod.fst).Nodup →
      ((nks.foldl (fun m kw => (idx kw).foldl (bumpCluster kw) m) m).map Prod.fst).Nodup by
    exact h2 [] List.nodup_nil
  induction nks with
  | nil => exact fun m h => h
  | cons kw ks ih =>
    intro m hm
    rw [List.foldl_cons]
    apply ih
    clear ih
    induction (idx kw) generalizing m with
    | nil => exact hm
    | cons cid cids ihc =>
      rw [List.foldl_cons]
      exact ihc _ (by rw [keys_bumpCluster]; exact nodup_insertUniq hm)

theorem countOf_of_mem {m : List (String × Nat × List String)}
    (hn : (m.map Prod.fst).Nodup) {e : String × Nat × List String} (he : e ∈ m) :
    countOf m e.1 = e.2.1 := by
  induction m with
  | nil => cases he
  | cons q rest ih =>
    rw [List.map_cons, List.nodup_cons] at hn
    rcases List.mem_cons.mp he with rfl | he
    · rw [countOf_cons, if_pos rfl]
    · rw [countOf_cons, if_neg, ih hn.2 he]
      intro hq
      exact hn.1 (hq ▸ List.mem_map_of_mem Prod.fst he)

theorem one_le_count_bumpCluster (kw : String) (m : List (String × Nat × List String))
    (cid : String) (h : ∀ e ∈ m, 1 ≤ e.2.1) :
    ∀ e ∈ bumpCluster kw m cid, 1 ≤ e.2.1 := by
  induction m with
  | nil =>
    intro e he
    rcases List.mem_singleton.mp he with rfl
    exact Nat.le_refl 1
  | cons q rest ih =>
    unfold bumpCluster
    by_cases hq : q.1 = cid
    · rw [if_pos hq]
      intro e he
      rcases List.mem_cons.mp he with rfl | he
      · exact Nat.le_add_left 1 q.2.1
      · exact h e (List.mem_cons_of_mem q he)
    · rw [if_neg hq]
      intro e he
      rcases List.mem_cons.mp he with rfl | he
      · exact h e (List.mem_cons_self e rest)
      · exact ih (fun x hx => h x (List.mem_cons_of_mem q hx)) e he

theorem one_le_count_cluster_scores (idx : String → List String) (nks : List String) :
    ∀ e ∈ cluster_scores_of idx nks, 1 ≤ e.2.1 := by
  unfold cluster_scores_of
  suffices h2 : ∀ m : List (String × Nat × List String), (∀ e ∈ m, 1 ≤ e.2.1) →
      ∀ e ∈ nks.foldl (fun m kw => (idx kw).foldl (bumpCluster kw) m) m, 1 ≤ e.2.1 by
    exact h2 [] (by intro e he; cases he)
  induction nks with
  | nil => exact fun m h => h
  | cons kw ks ih =>
    intro m hm
    rw [List.foldl_cons]
    apply ih
    clear ih
    induction (idx kw) generalizing m with
    | nil => exact hm
    | cons cid cids ihc =>
      rw [List.foldl_cons]
      exact ihc _ (one_le_count_bumpCluster kw m cid hm)

/-! ## The article-collection walk -/

theorem processPmc_cases (c : Corpus) (kws : List String) (L : Nat) (cid : String)
    (cnt : Nat) (kwset : List String) (acc : List ArticleResult × List String) (pmc : String) :
    (pmc ∈ acc.2 ∧ processPmc c kws L cid cnt kwset acc pmc = acc) ∨
    (pmc ∉ acc.2 ∧ dictGet c.pmc_to_title pmc "" = "" ∧
      processPmc c kws L cid cnt kwset acc pmc = (acc.1, acc.2 ++ [pmc])) ∨
    (pmc ∉ acc.2 ∧ dictGet c.pmc_to_title pmc "" ≠ "" ∧
      processPmc c kws L cid cnt kwset acc pmc =
        (acc.1 ++ [⟨pmc, dictGet c.pmc_to_title pmc "",
          round4 (((cnt : ℚ) / (L : ℚ)) * (4/5 + 1/5 *
            (((find_matched_keywords (dictGet c.pmc_to_title pmc "") kws).length : ℚ) /
              (kws.length : ℚ)))),
          cid, kwset⟩], acc.2 ++ [pmc])) := by
  by_cases h1 : pmc ∈ acc.2
  · refine Or.inl ⟨h1, ?_⟩
    unfold processPmc
    rw [if_pos h1]
  · by_cases h2 : dictGet c.pmc_to_title pmc "" = ""
    · refine Or.inr (Or.inl ⟨h1, h2, ?_⟩)
      unfold processPmc
      rw [if_neg h1]
      dsimp only
      rw [if_pos h2]
    · refine Or.inr (Or.inr ⟨h1, h2, ?_⟩)
      unfold processPmc
      rw [if_neg h1]
      dsimp only
      rw [if_neg h2]

theorem processPmc_seen_grows {c : Corpus} {kws : List String} {L : Nat} {cid : String}
    {cnt : Nat} {kwset : List String} {acc : List ArticleResult × List String} {pmc : String}
    {x : String} (hx : x ∈ acc.2) : x ∈ (processPmc c kws L cid cnt kwset acc pmc).2 := by
  rcases processPmc_cases c kws L cid cnt kwset acc pmc with
    ⟨_, heq⟩ | ⟨_, _, heq⟩ | ⟨_, _, heq⟩ <;> rw [heq]
  · exact hx
  · exact List.mem_append_left _ hx
  · exact List.mem_append_left _ hx

theorem seen_pmcFold (c : Corpus) (kws : List String) (L : Nat) (cid : String)
    (cnt : Nat) (kwset : List String) (pmcs : List String)
    (acc : List ArticleResult × List String) (x : String) :
    x ∈ (pmcs.foldl (processPmc c kws L cid cnt kwset) acc).2 ↔
      x ∈ acc.2 ∨ x ∈ pmcs := by
  induction pmcs generalizing acc with
  | nil => simp
  | cons p ps ih =>
    rw [List.foldl_cons, ih]
    have hstep : x ∈ (processPmc c kws L cid cnt kwset acc p).2 ↔ x ∈ acc.2 ∨ x = p := by
      rcases processPmc_cases c kws L cid cnt kwset acc p with
        ⟨hin, heq⟩ | ⟨_, _, heq⟩ | ⟨_, _, heq⟩ <;> rw [heq]
      · constructor
        · exact Or.inl
        · rintro (h | rfl)
          · exact h
          · exact hin
      · show x ∈ acc.2 ++ [p] ↔ _
        simp
      · show x ∈ acc.2 ++ [p] ↔ _
        simp
    rw [hstep, List.mem_cons]
    tauto

theorem mem_res_pmcFold (c : Corpus) (kws : List String) (L : Nat) (cid : String)
    (cnt : Nat) (kwset : List String) (pmcs : List String)
    (acc : List ArticleResult × List String) (r : ArticleResult)
    (hr : r ∈ (pmcs.foldl (processPmc c kws L cid cnt kwset) acc).1) :
    r ∈ acc.1 ∨
      (r.cluster_id = cid ∧ r.matched_keywords = kwset ∧ r.pmc_id ∈ pmcs ∧
        r.pmc_id ∉ acc.2 ∧ r.title = dictGet c.pmc_to_title r.pmc_id "" ∧ r.title ≠ "" ∧
        r.relevance_score = round4 (((cnt : ℚ) / (L : ℚ)) * (4/5 + 1/5 *
          (((find_matched_keywords r.title kws).length : ℚ) / (kws.length : ℚ))))) := by
  induction pmcs generalizing acc with
  | nil => exact Or.inl hr
  | cons p ps ih =>
    rw [List.foldl_cons] at hr
    rcases ih _ hr with hin | hnew
    · rcases processPmc_cases c kws L cid cnt kwset acc p with
        ⟨_, heq⟩ | ⟨_, _, heq⟩ | ⟨hnin, hne, heq⟩
      · rw [heq] at hin
        exact Or.inl hin
      · rw [heq] at hin
        exact Or.inl hin
      · rw [heq] at hin
        rcases List.mem_append.mp hin with hin | hin
        · exact Or.inl hin
        · rcases List.mem_singleton.mp hin with rfl
          exact Or.inr ⟨rfl, rfl, List.mem_cons_self _ _, hnin, rfl, hne, rfl⟩
    · obtain ⟨h1, h2, h3, h4, h5, h6, h7⟩ := hnew
      refine Or.inr ⟨h1, h2, List.mem_cons_of_mem _ h3, ?_, h5, h6, h7⟩
      exact fun hx => h4 (processPmc_seen_grows hx)

theorem invariants_pmcFold (c : Corpus) (kws : List String) (L : Nat) (cid : String)
    (cnt : Nat) (kwset : List String) (pmcs : List String)
    (acc : List ArticleResult × List String)
    (h1 : (acc.1.map (fun r => r.pmc_id)).Nodup)
    (h2 : ∀ r ∈ acc.1, r.pmc_id ∈ acc.2) :
    (((pmcs.foldl (processPmc c kws L cid cnt kwset) acc).1.map
        (fun r => r.pmc_id)).Nodup) ∧
      ∀ r ∈ (pmcs.foldl (processPmc c kws L cid cnt kwset) acc).1,
        r.pmc_id ∈ (pmcs.foldl (processPmc c kws L cid cnt kwset) acc).2 := by
  induction pmcs generalizing acc with
  | nil => exact ⟨h1, h2⟩
  | cons p ps ih =>
    rw [List.foldl_cons]
    rcases processPmc_cases c kws L cid cnt kwset acc p with
      ⟨_, heq⟩ | ⟨_, _, heq⟩ | ⟨hnin, _, heq⟩ <;> rw [heq]
    · exact ih acc h1 h2
    · refine ih _ h1 ?_
      intro r hr
      exact List.mem_append_left _ (h2 r hr)
    · refine ih _ ?_ ?_
      · rw [List.map_append, List.map_singleton]
        refine List.Nodup.append h1 (List.nodup_singleton _) ?_
        intro a ha hb
        rcases List.mem_singleton.mp hb with rfl
        rcases List.mem_map.mp ha with ⟨r, hr, hrp⟩
        exact hnin (hrp ▸ h2 r hr)
      · intro r hr
        rcases List.mem_append.mp hr with hr | hr
        · exact List.mem_append_left _ (h2 r hr)
        · rcases List.mem_singleton.mp hr with rfl
          exact List.mem_append_right _ (List.mem_singleton_self p)

theorem processCluster_eq (c : Corpus) (kws : List String) (L : Nat)
    (acc : List ArticleResult × List String) (e : String × Nat × List String) :
    processCluster c kws L acc e =
      (dictGet c.clusters_pmc e.1 []).foldl (processPmc c kws L e.1 e.2.1 e.2.2) acc := rfl

theorem invariants_walkFold (c : Corpus) (kws : List String) (L : Nat)
    (walk : List (String × Nat × List String)) (acc : List ArticleResult × List String)
    (h1 : (acc.1.map (fun r => r.pmc_id)).Nodup)
    (h2 : ∀ r ∈ acc.1, r.pmc_id ∈ acc.2) :
    (((walk.foldl (processCluster c kws L) acc).1.map (fun r => r.pmc_id)).Nodup) ∧
      ∀ r ∈ (walk.foldl (processCluster c kws L) acc).1,
        r.pmc_id ∈ (walk.foldl (processCluster c kws L) acc).2 := by
  induction walk generalizing acc with
  | nil => exact ⟨h1, h2⟩
  | cons e es ih =>
    rw [List.foldl_cons, processCluster_eq]
    have step := invariants_pmcFold c kws L e.1 e.2.1 e.2.2
      (dictGet c.clusters_pmc e.1 []) acc h1 h2
    exact ih _ step.1 step.2

theorem seen_walkFold (c : Corpus) (kws : List String) (L : Nat)
    (walk : List (String × Nat × List String)) (acc : List ArticleResult × List String)
    (x : String) :
    x ∈ (walk.foldl (processCluster c kws L) acc).2 ↔
      x ∈ acc.2 ∨ ∃ e ∈ walk, x ∈ dictGet c.clusters_pmc e.1 [] := by
  induction walk generalizing acc with
  | nil => simp
  | cons e es ih =>
    rw [List.foldl_cons, ih, processCluster_eq, seen_pmcFold]
    constructor
    · rintro ((hx | hx) | ⟨e', he', hx⟩)
      · exact Or.inl hx
      · exact Or.inr ⟨e, List.mem_cons_self _ _, hx⟩
      · exact Or.inr ⟨e', List.mem_cons_of_mem _ he', hx⟩
    · rintro (hx | ⟨e', he', hx⟩)
      · exact Or.inl (Or.inl hx)
      · rcases List.mem_cons.mp he' with rfl | he'
        · exact Or.inl (Or.inr hx)
        · exact Or.inr ⟨e', he', hx⟩

theorem mem_res_walkFold (c : Corpus) (kws : List String) (L : Nat)
    (walk : List (String × Nat × List String)) (acc : List ArticleResult × List String)
    (r : ArticleResult) (hr : r ∈ (walk.foldl (processCluster c kws L) acc).1) :
    r ∈ acc.1 ∨ ∃ e ∈ walk, r.cluster_id = e.1 ∧ r.matched_keywords = e.2.2 ∧
      r.pmc_id ∈ dictGet c.clusters_pmc e.1 [] ∧
      r.title = dictGet c.pmc_to_title r.pmc_id "" ∧ r.title ≠ "" ∧
      r.relevance_score = round4 (((e.2.1 : ℚ) / (L : ℚ)) * (4/5 + 1/5 *
        (((find_matched_keywords r.title kws).length : ℚ) / (kws.length : ℚ)))) := by
  induction walk generalizing acc with
  | nil => exact Or.inl hr
  | cons e es ih =>
    rw [List.foldl_cons] at hr
    rcases ih _ hr with hin | ⟨e', he', hprops⟩
    · rw [processCluster_eq] at hin
      rcases mem_res_pmcFold c kws L e.1 e.2.1 e.2.2 _ acc r hin with hin | hnew
      · exact Or.inl hin
      · obtain ⟨hcid, hmk, hpmc, _, ht, hne, hs⟩ := hnew
        exact Or.inr ⟨e, List.mem_cons_self _ _, hcid, hmk, hcid ▸ hpmc, ht, hne, hs⟩
    · exact Or.inr ⟨e', List.mem_cons_of_mem _ he', hprops⟩

theorem find?_first_true {p : β → Bool} {l1 l2 : List β}
    (h1 : ∀ x ∈ l1, ¬ p x) : List.find? p (l1 ++ l2) = List.find? p l2 := by
  rw [List.find?_append, List.find?_eq_none.mpr h1, Option.none_or]

theorem attribution_walkFold (c : Corpus) (kws : List String) (L : Nat)
    (S P : List (String × Nat × List String)) (acc : List ArticleResult × List String)
    (hPseen : ∀ e ∈ P, ∀ x ∈ dictGet c.clusters_pmc e.1 [], x ∈ acc.2)
    (hacc : ∀ r ∈ acc.1,
      (((P ++ S).find?
        (fun e => decide (r.pmc_id ∈ dictGet c.clusters_pmc e.1 []))).map Prod.fst)
        = some r.cluster_id) :
    ∀ r ∈ (S.foldl (processCluster c kws L) acc).1,
      (((P ++ S).find?
        (fun e => decide (r.pmc_id ∈ dictGet c.clusters_pmc e.1 []))).map Prod.fst)
        = some r.cluster_id := by
  induction S generalizing P acc with
  | nil => exact hacc
  | cons s S ih =>
    rw [List.foldl_cons]
    intro r hr
    have hassoc : P ++ s :: S = (P ++ [s]) ++ S := by
      rw [List.append_assoc, List.singleton_append]
    rw [hassoc]
    refine ih (P ++ [s]) (processCluster c kws L acc s) ?_ ?_ r hr
    · intro e he x hx
      rcases List.mem_append.mp he with he | he
      · rw [processCluster_eq, seen_pmcFold]
        exact Or.inl (hPseen e he x hx)
      · rcases List.mem_singleton.mp he with rfl
        rw [processCluster_eq, seen_pmcFold]
        exact Or.inr hx
    · intro r' hr'
      rw [← hassoc]
      rw [processCluster_eq] at hr'
      rcases mem_res_pmcFold c kws L s.1 s.2.1 s.2.2 _ acc r' hr' with hold | hnew
      · exact hacc r' hold
      · obtain ⟨hcid, _, hpmc, hnseen, _, _, _⟩ := hnew
        rw [find?_first_true ?_]
        · rw [List.find?_cons_of_pos _ (by simpa using hpmc), Option.map_some']
          rw [hcid]
        · intro e he
          simp only [decide_eq_true_eq]
          intro hmem
          exact hnseen (hPseen e he r'.pmc_id hmem)

/-! ## Membership characterization of ranked articles -/

theorem mem_find_articles (c : Corpus) (keywords : List String) (top_n : ℤ)
    (r : ArticleResult) (hr : r ∈ find_articles_by_keywords c keywords top_n) :
    ∃ e ∈ articleWalkOf c keywords, r.cluster_id = e.1 ∧ r.matched_keywords = e.2.2 ∧
      r.pmc_id ∈ dictGet c.clusters_pmc e.1 [] ∧
      r.title = dictGet c.pmc_to_title r.pmc_id "" ∧ r.title ≠ "" ∧
      r.relevance_score =
        round4 (((e.2.1 : ℚ) / (((keywords.take 5).map normalizeKw).length : ℚ)) *
          (4/5 + 1/5 * (((find_matched_keywords r.title (keywords.take 5)).length : ℚ) /
            ((keywords.take 5).length : ℚ)))) := by
  unfold find_articles_by_keywords at hr
  split at hr
  · cases hr
  · dsimp only at hr
    split at hr
    · cases hr
    · have hr2 : r ∈ (collectArticles c (keywords.take 5)
          ((keywords.take 5).map normalizeKw).length
          (sort_clusters_by_count
            (cluster_scores_of (ar_keyword_index c) ((keywords.take 5).map normalizeKw)))).1 :=
        (mem_sortDescBy _ r _).mp ((pyTake_sublist top_n _).subset hr)
      unfold collectArticles at hr2
      rcases mem_res_walkFold c (keywords.take 5) _ _ _ r hr2 with hin | ⟨e, he, hprops⟩
      · cases hin
      · exact ⟨e, he, hprops⟩

/-! ## Claim theorems -/

/-- C3: for every normalized keyword K and cluster identifier C, the
`ClusterRecommender` inverted index maps K to a set containing C iff K is a
member of C's merged (unigram plus bigram, lowercased and trimmed) keyword
set, and a keyword absent from every cluster's keyword set has an empty
index entry. -/
theorem C3_index_invariant (c : Corpus) (k cid : String) :
    (cid ∈ cr_keyword_index c k ↔ k ∈ dictGet (load_cluster_keywords c) cid []) ∧
    (k ∈ dictGet (load_cluster_keywords c) cid [] ↔
      ∃ p ∈ c.unigrams ++ c.bigrams, p.1 = cid ∧ ∃ w ∈ p.2, normalizeKw w = k) ∧
    (cr_keyword_index c k = [] ↔
      ∀ cid2, k ∉ dictGet (load_cluster_keywords c) cid2 []) := by
  refine ⟨mem_cr_keyword_index c cid k, mem_load_cluster_keywords c cid k, ?_, ?_⟩
  · intro heq cid2 hk
    have h2 : cid2 ∈ cr_keyword_index c k := (mem_cr_keyword_index c cid2 k).mpr hk
    rw [heq] at h2
    cases h2
  · intro hall
    rw [List.eq_nil_iff_forall_not_mem]
    intro cid2 h2
    exact hall cid2 ((mem_cr_keyword_index c cid2 k).mp h2)

/-- C5: no ranked article has an empty title: every returned article's title
is the one the corpus maps its identifier to, and it is nonempty (articles
with a missing or empty title are never emitted). -/
theorem C5_no_empty_title (c : Corpus) (keywords : List String) (top_n : ℤ)
    (r : ArticleResult) (hr : r ∈ find_articles_by_keywords c keywords top_n) :
    r.title = dictGet c.pmc_to_title r.pmc_id "" ∧ r.title ≠ "" := by
  rcases mem_find_articles c keywords top_n r hr with ⟨e, _, _, _, _, ht, hne, _⟩
  exact ⟨ht, hne⟩

/-- C1: every ranked article's `relevance_score` equals
`cluster_score * (0.8 + 0.2 * title_boost)` rounded to 4 decimal places,
where `cluster_score` is the attributed cluster's matched-keyword count over
the normalized-query length and `title_boost` counts raw query keywords
occurring case-insensitively in the title over the raw query length; the
score lies in (0, 1]. -/
theorem C1_article_score (c : Corpus) (keywords : List String) (top_n : ℤ)
    (r : ArticleResult) (h1 : 1 ≤ keywords.length) (h5 : keywords.length ≤ 5)
    (hr : r ∈ find_articles_by_keywords c keywords top_n) :
    r.relevance_score =
      round4 (((((keywords.map normalizeKw).filter
            (fun k => decide (r.cluster_id ∈ ar_keyword_index c k))).length : ℚ) /
          ((keywords.map normalizeKw).length : ℚ)) *
        (4/5 + 1/5 * (((find_matched_keywords r.title keywords).length : ℚ) /
          (keywords.length : ℚ)))) ∧
    0 < r.relevance_score ∧ r.relevance_score ≤ 1 := by
  have htk : keywords.take 5 = keywords := List.take_of_length_le h5
  rcases mem_find_articles c keywords top_n r hr with
    ⟨e, he, hcid, _, _, _, _, hscore⟩
  rw [htk] at hscore
  have he2 : e ∈ cluster_scores_of (ar_keyword_index c) (keywords.map normalizeKw) := by
    have he' : e ∈ sort_clusters_by_count
        (cluster_scores_of (ar_keyword_index c) ((keywords.take 5).map normalizeKw)) := he
    rw [htk] at he'
    unfold sort_clusters_by_count at he'
    exact (mem_sortDescBy _ e _).mp he'
  have hcount : e.2.1 = ((keywords.map normalizeKw).filter
      (fun k => decide (r.cluster_id ∈ ar_keyword_index c k))).length := by
    rw [hcid]
    rw [← countOf_cluster_scores (ar_keyword_index c) (keywords.map normalizeKw)
      (nodup_ar_keyword_index c) e.1]
    exact (countOf_of_mem (keys_nodup_cluster_scores _ _) he2).symm
  have hLpos : 0 < keywords.length := h1
  have hLQ : (0 : ℚ) < (keywords.length : ℚ) := by exact_mod_cast hLpos
  have hcnt1 : 1 ≤ e.2.1 := one_le_count_cluster_scores _ _ e he2
  have hcntL : e.2.1 ≤ keywords.length := by
    rw [hcount]
    calc ((keywords.map normalizeKw).filter _).length
        ≤ (keywords.map normalizeKw).length := List.length_filter_le _ _
      _ = keywords.length := List.length_map _ _
  have hmlen : (find_matched_keywords r.title keywords).length ≤ keywords.length := by
    unfold find_matched_keywords
    exact List.length_filter_le _ _
  have hmap : (keywords.map normalizeKw).length = keywords.length := List.length_map _ _
  constructor
  · rw [hscore, hmap, ← hcount]
  · have hscore2 : r.relevance_score =
        round4 (((e.2.1 : ℚ) / (keywords.length : ℚ)) *
          (4/5 + 1/5 * (((find_matched_keywords r.title keywords).length : ℚ) /
            (keywords.length : ℚ)))) := by
      rw [hscore, hmap]
    set a : ℚ := (e.2.1 : ℚ) / (keywords.length : ℚ) with ha
    set t : ℚ := ((find_matched_keywords r.title keywords).length : ℚ) /
      (keywords.length : ℚ) with hT
    have ha_lb : (1 : ℚ)/5 ≤ a := by
      rw [ha, div_le_div_iff₀ (by norm_num) hLQ]
      have hc1 : (1 : ℚ) ≤ (e.2.1 : ℚ) := by exact_mod_cast hcnt1
      have hl5 : (keywords.length : ℚ) ≤ 5 := by exact_mod_cast h5
      nlinarith
    have ha_ub : a ≤ 1 := by
      rw [ha, div_le_one hLQ]
      exact_mod_cast hcntL
    have ht_lb : 0 ≤ t := by
      rw [hT]
      positivity
    have ht_ub : t ≤ 1 := by
      rw [hT, div_le_one hLQ]
      exact_mod_cast hmlen
    have hraw_lb : (4 : ℚ)/25 ≤ a * (4/5 + 1/5 * t) := by nlinarith
    have hraw_ub : a * (4/5 + 1/5 * t) ≤ 1 := by nlinarith
    rw [hscore2]
    exact ⟨round4_pos hraw_lb, round4_le_one hraw_ub⟩

theorem nodup_map_pyTake_sortDescBy (key : α → ℚ) (f : α → String) (l : List α)
    (n : ℤ) (h : (l.map f).Nodup) : ((pyTake n (sortDescBy key l)).map f).Nodup := by
  have hperm : List.Perm ((sortDescBy key l).map f) (l.map f) :=
    (perm_sortDescBy key l).map f
  have hs : ((sortDescBy key l).map f).Nodup := hperm.nodup_iff.mpr h
  exact List.Nodup.sublist ((pyTake_sublist n _).map f) hs

/-- C4: one call never returns the same article identifier twice, and a
deduplicated article is attributed to the first cluster of the
descending-by-count walk whose PMC list contains it. -/
theorem C4_article_dedup (c : Corpus) (keywords : List String) (top_n : ℤ)
    (r : ArticleResult) (hr : r ∈ find_articles_by_keywords c keywords top_n) :
    ((find_articles_by_keywords c keywords top_n).map (fun x => x.pmc_id)).Nodup ∧
    firstContainingCluster c keywords r.pmc_id = some r.cluster_id := by
  constructor
  · unfold find_articles_by_keywords
    split
    · exact List.nodup_nil
    · dsimp only
      split
      · exact List.nodup_nil
      · exact nodup_map_pyTake_sortDescBy _ _ _ _
          (invariants_walkFold c (keywords.take 5)
            ((keywords.take 5).map normalizeKw).length
            (sort_clusters_by_count (cluster_scores_of (ar_keyword_index c)
              ((keywords.take 5).map normalizeKw)))
            ([], []) List.nodup_nil (by intro x hx; cases hx)).1
  · unfold find_articles_by_keywords at hr
    split at hr
    · cases hr
    · dsimp only at hr
      split at hr
      · cases hr
      · have hr2 : r ∈ ((articleWalkOf c keywords).foldl
            (processCluster c (keywords.take 5)
              ((keywords.take 5).map normalizeKw).length) ([], [])).1 :=
          (mem_sortDescBy _ r _).mp ((pyTake_sublist top_n _).subset hr)
        have hattr := attribution_walkFold c (keywords.take 5)
          ((keywords.take 5).map normalizeKw).length (articleWalkOf c keywords) []
          ([], []) (by intro e he; cases he) (by intro x hx; cases hx) r hr2
        rw [List.nil_append] at hattr
        exact hattr

theorem pyTake_sortDescBy_props (key : α → ℚ) (l : List α) (n : ℤ) (h : 0 ≤ n) :
    ((pyTake n (sortDescBy key l)).length : ℤ) ≤ n ∧
    (pyTake n (sortDescBy key l)).Pairwise (fun a b => key b ≤ key a) :=
  ⟨length_pyTake_le _ h,
    (pairwise_sortDescBy key l).sublist (pyTake_sublist n _)⟩

/-- C6: for positive `topN` both rankers return at most `topN` results, in
non-increasing order of `relevance_score` (all candidates are sorted
descending by score, then truncated). -/
theorem C6_topn_sorted (c : Corpus) (keywords : List String) (top_n : ℤ)
    (h : 0 < top_n) :
    ((find_best_cluster c keywords top_n).length : ℤ) ≤ top_n ∧
    (find_best_cluster c keywords top_n).Pairwise
      (fun a b => b.relevance_score ≤ a.relevance_score) ∧
    ((find_articles_by_keywords c keywords top_n).length : ℤ) ≤ top_n ∧
    (find_articles_by_keywords c keywords top_n).Pairwise
      (fun a b => b.relevance_score ≤ a.relevance_score) := by
  have h0 : 0 ≤ top_n := le_of_lt h
  refine ⟨?_, ?_, ?_, ?_⟩
  · unfold find_best_cluster
    split
    · simpa using h0
    · dsimp only
      split
      · simpa using h0
      · exact (pyTake_sortDescBy_props _ _ top_n h0).1
  · unfold find_best_cluster
    split
    · exact List.Pairwise.nil
    · dsimp only
      split
      · exact List.Pairwise.nil
      · exact (pyTake_sortDescBy_props _ _ top_n h0).2
  · unfold find_articles_by_keywords
    split
    · simpa using h0
    · dsimp only
      split
      · simpa using h0
      · exact (pyTake_sortDescBy_props _ _ top_n h0).1
  · unfold find_articles_by_keywords
    split
    · exact List.Pairwise.nil
    · dsimp only
      split
      · exact List.Pairwise.nil
      · exact (pyTake_sortDescBy_props _ _ top_n h0).2

/-- C7: a query of more than 5 keywords is silently truncated to its first
5: the result equals the result for the 5-element prefix (both
rankers are total functions, so no error is raised). -/
theorem C7_truncation (c : Corpus) (keywords : List String) (top_n : ℤ)
    (h : 5 < keywords.length) :
    find_best_cluster c keywords top_n = find_best_cluster c (keywords.take 5) top_n ∧
    find_articles_by_keywords c keywords top_n =
      find_articles_by_keywords c (keywords.take 5) top_n := by
  have h0 : ¬ keywords = [] := by
    intro he
    rw [he] at h
    simp at h
  have h0t : ¬ keywords.take 5 = [] := by
    cases keywords with
    | nil => simp at h
    | cons a as =>
      intro he
      rw [show (5 : Nat) = 4 + 1 from rfl, List.take_succ_cons] at he
      cases he
  have htt : (keywords.take 5).take 5 = keywords.take 5 := by
    rw [List.take_take]
    simp
  constructor
  · unfold find_best_cluster
    rw [if_neg h0, if_neg h0t, htt]
  · unfold find_articles_by_keywords
    rw [if_neg h0, if_neg h0t, htt]

theorem cluster_scores_nil (idx : String → List String) (nks : List String)
    (h : ∀ kw ∈ nks, idx kw = []) : cluster_scores_of idx nks = [] := by
  unfold cluster_scores_of
  induction nks with
  | nil => rfl
  | cons kw ks ih =>
    rw [List.foldl_cons, h kw (List.mem_cons_self _ _), List.foldl_nil]
    exact ih (fun w hw => h w (List.mem_cons_of_mem _ hw))

/-- C8: an empty keyword list yields the empty list from both rankers, as
does a query none of whose keywords occurs (after normalization) in any
cluster's keyword lists; neither case is an error. -/
theorem C8_empty_and_no_match (c : Corpus) (keywords : List String) (top_n : ℤ)
    (h : ∀ kw ∈ keywords, ∀ p ∈ c.unigrams ++ c.bigrams, ∀ w ∈ p.2,
      normalizeKw w ≠ normalizeKw kw) :
    find_best_cluster c [] top_n = [] ∧
    find_articles_by_keywords c [] top_n = [] ∧
    find_best_cluster c keywords top_n = [] ∧
    find_articles_by_keywords c keywords top_n = [] := by
  have hidx : ∀ kw ∈ (keywords.take 5).map normalizeKw,
      ar_keyword_index c kw = [] ∧ cr_keyword_index c kw = [] := by
    intro k hk
    rcases List.mem_map.mp hk with ⟨kw, hkw, rfl⟩
    have hkw2 : kw ∈ keywords := List.take_subset 5 keywords hkw
    constructor
    · rw [List.eq_nil_iff_forall_not_mem]
      intro cid hcid
      rcases (mem_ar_keyword_index c cid (normalizeKw kw)).mp hcid with ⟨p, hp, _, w, hw, hwk⟩
      exact h kw hkw2 p hp w hw hwk
    · rw [List.eq_nil_iff_forall_not_mem]
      intro cid hcid
      have h2 := (mem_cr_keyword_index c cid (normalizeKw kw)).mp hcid
      rcases (mem_load_cluster_keywords c cid (normalizeKw kw)).mp h2 with
        ⟨p, hp, _, w, hw, hwk⟩
      exact h kw hkw2 p hp w hw hwk
  refine ⟨?_, ?_, ?_, ?_⟩
  · unfold find_best_cluster
    rw [if_pos rfl]
  · unfold find_articles_by_keywords
    rw [if_pos rfl]
  · unfold find_best_cluster
    split
    · rfl
    · dsimp only
      rw [if_pos (cluster_scores_nil _ _ (fun kw hk => (hidx kw hk).2))]
  · unfold find_articles_by_keywords
    split
    · rfl
    · dsimp only
      rw [if_pos (cluster_scores_nil _ _ (fun kw hk => (hidx kw hk).1))]

/-- C9: `find_articles_by_keywords` walks clusters sorted by raw
matched-keyword count, which for every nonempty query produces exactly the
order the spec prescribes — descending by `cluster_score` = count divided by
the (positive) normalized-query length. -/
theorem C9_walk_order_refines (c : Corpus) (keywords : List String)
    (h : 0 < keywords.length) :
    sort_clusters_by_count
        (cluster_scores_of (ar_keyword_index c) ((keywords.take 5).map normalizeKw)) =
      spec_sort_clusters_by_score ((keywords.take 5).map normalizeKw).length
        (cluster_scores_of (ar_keyword_index c) ((keywords.take 5).map normalizeKw)) := by
  have hL : 0 < ((keywords.take 5).map normalizeKw).length := by
    rw [List.length_map, List.length_take]
    omega
  have hLQ : (0 : ℚ) < (((keywords.take 5).map normalizeKw).length : ℚ) := by
    exact_mod_cast hL
  unfold sort_clusters_by_count spec_sort_clusters_by_score
  apply sortDescBy_congr_key
  intro a b
  rw [div_le_div_iff_of_pos_right hLQ]

theorem mem_find_best_cluster (c : Corpus) (keywords : List String) (top_n : ℤ)
    (r : ClusterResult) (hr : r ∈ find_best_cluster c keywords top_n) :
    ∃ e ∈ cluster_scores_of (cr_keyword_index c) ((keywords.take 5).map normalizeKw),
      r.cluster_id = e.1 ∧
      r.relevance_score =
        round4 ((e.2.1 : ℚ) / (((keywords.take 5).map normalizeKw).length : ℚ)) := by
  unfold find_best_cluster at hr
  split at hr
  · cases hr
  · dsimp only at hr
    split at hr
    · cases hr
    · have hr2 := (mem_sortDescBy _ r _).mp ((pyTake_sublist top_n _).subset hr)
      rcases List.mem_map.mp hr2 with ⟨e, he, heq⟩
      refine ⟨e, he, ?_, ?_⟩
      · rw [← heq]
      · rw [← heq]

/-- C2 (amended): every cluster result's `relevance_score` lies in (0, 1]
and equals the number of normalized query keyword positions whose keyword
belongs to the cluster's keyword set (occurrences counted, not distinct
keywords), divided by the normalized query length, and rounded to 4 decimal
places. -/
theorem C2_cluster_score_amended (c : Corpus) (keywords : List String) (top_n : ℤ)
    (r : ClusterResult) (h1 : 1 ≤ keywords.length) (h5 : keywords.length ≤ 5)
    (hr : r ∈ find_best_cluster c keywords top_n) :
    0 < r.relevance_score ∧ r.relevance_score ≤ 1 ∧
    r.relevance_score =
      round4 ((((keywords.map normalizeKw).filter
          (fun k => decide (k ∈ dictGet (load_cluster_keywords c) r.cluster_id
            []))).length : ℚ) /
        (keywords.length : ℚ)) := by
  have htk : keywords.take 5 = keywords := List.take_of_length_le h5
  rcases mem_find_best_cluster c keywords top_n r hr with ⟨e, he, hcid, hscore⟩
  rw [htk] at he hscore
  rw [List.length_map] at hscore
  have hcount : e.2.1 = ((keywords.map normalizeKw).filter
      (fun k => decide (k ∈ dictGet (load_cluster_keywords c) r.cluster_id []))).length := by
    have h2 : e.2.1 = ((keywords.map normalizeKw).filter
        (fun k => decide (r.cluster_id ∈ cr_keyword_index c k))).length := by
      rw [hcid]
      rw [← countOf_cluster_scores (cr_keyword_index c) (keywords.map normalizeKw)
        (nodup_cr_keyword_index c) e.1]
      exact (countOf_of_mem (keys_nodup_cluster_scores _ _) he).symm
    rw [h2]
    congr 1
    apply List.filter_congr
    intro k _
    exact decide_eq_decide.mpr (mem_cr_keyword_index c r.cluster_id k)
  have hLQ : (0 : ℚ) < (keywords.length : ℚ) := by
    exact_mod_cast h1
  have hcnt1 : 1 ≤ e.2.1 := one_le_count_cluster_scores _ _ e he
  have hcntL : e.2.1 ≤ keywords.length := by
    rw [hcount]
    calc ((keywords.map normalizeKw).filter _).length
        ≤ (keywords.map normalizeKw).length := List.length_filter_le _ _
      _ = keywords.length := List.length_map _ _
  have ha_lb : (4 : ℚ)/25 ≤ (e.2.1 : ℚ) / (keywords.length : ℚ) := by
    rw [div_le_div_iff₀ (by norm_num) hLQ]
    have hc1 : (1 : ℚ) ≤ (e.2.1 : ℚ) := by exact_mod_cast hcnt1
    have hl5 : (keywords.length : ℚ) ≤ 5 := by exact_mod_cast h5
    nlinarith
  have ha_ub : (e.2.1 : ℚ) / (keywords.length : ℚ) ≤ 1 := by
    rw [div_le_one hLQ]
    exact_mod_cast hcntL
  refine ⟨?_, ?_, ?_⟩
  · rw [hscore]
    exact round4_pos ha_lb
  · rw [hscore]
    exact round4_le_one ha_ub
  · rw [hscore, hcount]

/-- C2 counterexample: as stated the claim fails on the code in two ways.
With query `["alpha","beta","gamma"]` the matched count is 1 and L = 3, yet
the returned score is `round(1/3, 4) = 0.3333 ≠ 1/3`. With query
`["alpha","Alpha"]` both positions normalize to "alpha", the count of
distinct matching normalized keywords is 1 and L = 2, yet the returned
score is 1.0, not 1/2. -/
theorem C2_counterexample :
    find_best_cluster c2Corpus ["alpha", "beta", "gamma"] 1 =
      [⟨"0", 3333/10000, ["alpha"], 1⟩] ∧
    (3333/10000 : ℚ) ≠ (1 : ℚ)/3 ∧
    find_best_cluster c2Corpus ["alpha", "Alpha"] 1 = [⟨"0", 1, ["alpha"], 1⟩] ∧
    ((["alpha", "Alpha"].map normalizeKw).dedup.filter
      (fun k => decide ("0" ∈ cr_keyword_index c2Corpus k))).length = 1 ∧
    (1 : ℚ) ≠ (1 : ℚ)/2 := by
  refine ⟨by decide, by decide, by decide, by decide, by decide⟩

/-- C10: the title-boost substring test lowercases raw keywords without
trimming them: the query `[" bone"]` (leading blank) matches cluster "0"
through its trimmed normalized form, the trimmed form occurs in the
article's lowercased title, yet `_find_matched_keywords` finds nothing and
the article's score carries no boost (0.8 instead of 1.0). -/
theorem C10_title_boost_untrimmed :
    normalizeKw " bone" = "bone" ∧
    "0" ∈ ar_keyword_index c10Corpus (normalizeKw " bone") ∧
    strContains (lowerStr "Bone loss") (normalizeKw " bone") = true ∧
    find_matched_keywords "Bone loss" [" bone"] = [] ∧
    find_articles_by_keywords c10Corpus [" bone"] 5 =
      [⟨"P1", "Bone loss", 4/5, "0", ["bone"]⟩] := by
  refine ⟨by decide, by decide, by decide, by decide, by decide⟩

/-! ## Witnesses: each theorem with hypotheses applied on a concrete run -/

theorem C1_article_score_witness :
    1 ≤ (["alpha", "beta"] : List String).length ∧
    (["alpha", "beta"] : List String).length ≤ 5 ∧
    (⟨"P1", "Alpha study", 9/20, "0", ["alpha"]⟩ : ArticleResult) ∈
      find_articles_by_keywords exArtCorpus ["alpha", "beta"] 5 ∧
    (0 : ℚ) < 9/20 ∧ (9/20 : ℚ) ≤ 1 :=
  ⟨by decide, by decide, by decide,
    (C1_article_score exArtCorpus ["alpha", "beta"] 5
      ⟨"P1", "Alpha study", 9/20, "0", ["alpha"]⟩
      (by decide) (by decide) (by decide)).2.1,
    (C1_article_score exArtCorpus ["alpha", "beta"] 5
      ⟨"P1", "Alpha study", 9/20, "0", ["alpha"]⟩
      (by decide) (by decide) (by decide)).2.2⟩

theorem C2_cluster_score_amended_witness :
    1 ≤ (["alpha"] : List String).length ∧ (["alpha"] : List String).length ≤ 5 ∧
    (⟨"0", 1, ["alpha"], 1⟩ : ClusterResult) ∈ find_best_cluster c2Corpus ["alpha"] 1 ∧
    (0 : ℚ) < 1 ∧ (1 : ℚ) ≤ 1 :=
  ⟨by decide, by decide, by decide,
    (C2_cluster_score_amended c2Corpus ["alpha"] 1 ⟨"0", 1, ["alpha"], 1⟩
      (by decide) (by decide) (by decide)).1,
    (C2_cluster_score_amended c2Corpus ["alpha"] 1 ⟨"0", 1, ["alpha"], 1⟩
      (by decide) (by decide) (by decide)).2.1⟩

theorem C4_article_dedup_witness :
    (⟨"P1", "Alpha study", 9/20, "0", ["alpha"]⟩ : ArticleResult) ∈
      find_articles_by_keywords exArtCorpus ["alpha", "beta"] 5 ∧
    ((find_articles_by_keywords exArtCorpus ["alpha", "beta"] 5).map
      (fun x => x.pmc_id)).Nodup ∧
    firstContainingCluster exArtCorpus ["alpha", "beta"] "P1" = some "0" :=
  ⟨by decide,
    (C4_article_dedup exArtCorpus ["alpha", "beta"] 5
      ⟨"P1", "Alpha study", 9/20, "0", ["alpha"]⟩ (by decide)).1,
    (C4_article_dedup exArtCorpus ["alpha", "beta"] 5
      ⟨"P1", "Alpha study", 9/20, "0", ["alpha"]⟩ (by decide)).2⟩

theorem C5_no_empty_title_witness :
    (⟨"P3", "Beta results", 9/20, "1", ["beta"]⟩ : ArticleResult) ∈
      find_articles_by_keywords exArtCorpus ["alpha", "beta"] 5 ∧
    ("Beta results" : String) = dictGet exArtCorpus.pmc_to_title "P3" "" ∧
    ("Beta results" : String) ≠ "" :=
  ⟨by decide,
    (C5_no_empty_title exArtCorpus ["alpha", "beta"] 5
      ⟨"P3", "Beta results", 9/20, "1", ["beta"]⟩ (by decide)).1,
    (C5_no_empty_title exArtCorpus ["alpha", "beta"] 5
      ⟨"P3", "Beta results", 9/20, "1", ["beta"]⟩ (by decide)).2⟩

theorem C6_topn_sorted_witness :
    (0 : ℤ) < 3 ∧
    ((find_best_cluster exArtCorpus ["alpha", "beta"] 3).length : ℤ) ≤ 3 ∧
    (find_best_cluster exArtCorpus ["alpha", "beta"] 3).Pairwise
      (fun a b => b.relevance_score ≤ a.relevance_score) ∧
    ((find_articles_by_keywords exArtCorpus ["alpha", "beta"] 3).length : ℤ) ≤ 3 ∧
    (find_articles_by_keywords exArtCorpus ["alpha", "beta"] 3).Pairwise
      (fun a b => b.relevance_score ≤ a.relevance_score) :=
  ⟨by decide,
    (C6_topn_sorted exArtCorpus ["alpha", "beta"] 3 (by decide)).1,
    (C6_topn_sorted exArtCorpus ["alpha", "beta"] 3 (by decide)).2.1,
    (C6_topn_sorted exArtCorpus ["alpha", "beta"] 3 (by decide)).2.2.1,
    (C6_topn_sorted exArtCorpus ["alpha", "beta"] 3 (by decide)).2.2.2⟩

theorem C7_truncation_witness :
    5 < (["alpha", "b2", "b3", "b4", "b5", "b6"] : List String).length ∧
    find_best_cluster c2Corpus ["alpha", "b2", "b3", "b4", "b5", "b6"] 2 =
      find_best_cluster c2Corpus (["alpha", "b2", "b3", "b4", "b5", "b6"].take 5) 2 ∧
    find_articles_by_keywords c2Corpus ["alpha", "b2", "b3", "b4", "b5", "b6"] 2 =
      find_articles_by_keywords c2Corpus
        (["alpha", "b2", "b3", "b4", "b5", "b6"].take 5) 2 :=
  ⟨by decide,
    (C7_truncation c2Corpus ["alpha", "b2", "b3", "b4", "b5", "b6"] 2 (by decide)).1,
    (C7_truncation c2Corpus ["alpha", "b2", "b3", "b4", "b5", "b6"] 2 (by decide)).2⟩

theorem C8_empty_and_no_match_witness :
    (∀ kw ∈ (["zzz"] : List String), ∀ p ∈ c2Corpus.unigrams ++ c2Corpus.bigrams,
      ∀ w ∈ p.2, normalizeKw w ≠ normalizeKw kw) ∧
    find_best_cluster c2Corpus [] 4 = [] ∧
    find_articles_by_keywords c2Corpus [] 4 = [] ∧
    find_best_cluster c2Corpus ["zzz"] 4 = [] ∧
    find_articles_by_keywords c2Corpus ["zzz"] 4 = [] :=
  ⟨by decide,
    (C8_empty_and_no_match c2Corpus ["zzz"] 4 (by decide)).1,
    (C8_empty_and_no_match c2Corpus ["zzz"] 4 (by decide)).2.1,
    (C8_empty_and_no_match c2Corpus ["zzz"] 4 (by decide)).2.2.1,
    (C8_empty_and_no_match c2Corpus ["zzz"] 4 (by decide)).2.2.2⟩

theorem C9_walk_order_refines_witness :
    0 < (["alpha", "beta"] : List String).length ∧
    sort_clusters_by_count (cluster_scores_of (ar_keyword_index exArtCorpus)
        (((["alpha", "beta"] : List String).take 5).map normalizeKw)) =
      spec_sort_clusters_by_score
        (((["alpha", "beta"] : List String).take 5).map normalizeKw).length
        (cluster_scores_of (ar_keyword_index exArtCorpus)
          (((["alpha", "beta"] : List String).take 5).map normalizeKw)) :=
  ⟨by decide, C9_walk_order_refines exArtCorpus ["alpha", "beta"] (by decide)⟩
